import Mathlib

/-!
Verification development for the OpenKernel EDU per-user, per-lesson
progress tracking store (`src/database/types.ts`, class
`UserProgressRepository`).

The durable state behind Prisma is modelled as a list of progress
records; `prisma.userProgress.findUnique` on the composite key
`userId_lessonId` is the first record matching that key, `update` on
that key rewrites the first matching record in place, and `upsert`
appends a freshly created record when no record matches the key.
Numbers of the TypeScript source are embedded as `Int` (step numbers,
counters) and timestamps as `Nat`; `new Date()` becomes an explicit
`now` argument, and the record identifier generated by the storage
engine at creation becomes an explicit `newId` argument.
-/

set_option autoImplicit false

namespace OpenKernel

/-- The `DbUserProgress` entity of `src/database/types.ts`. -/
structure DbUserProgress where
  id : String
  userId : String
  lessonId : String
  completedSteps : List Int
  currentStep : Int
  startedAt : Nat
  completedAt : Option Nat
  timeSpentSecs : Int
  hintsUsed : Int
  attempts : Int
  deriving Repr, DecidableEq

/-- The `UpsertProgressInput` type of `src/database/types.ts`: optional
TypeScript fields become `Option` fields. -/
structure UpsertProgressInput where
  userId : String
  lessonId : String
  currentStep : Option Int := none
  completedSteps : Option (List Int) := none
  timeSpentSecs : Option Int := none
  hintsUsed : Option Int := none
  attempts : Option Int := none
  deriving Repr

/-- Errors surfaced by the repository; `NotFound` models the error Prisma
raises when `update` targets a missing record. -/
inductive RepoError where
  | NotFound
  deriving Repr, DecidableEq

/-- The durable store: the rows of the `userProgress` table. -/
abbrev Store := List DbUserProgress

/-- `prisma.userProgress.findUnique` on the composite key
`userId_lessonId`: the first record with that key. -/
def findUnique : Store → String → String → Option DbUserProgress
  | [], _, _ => none
  | p :: rest, u, l =>
      if p.userId = u ∧ p.lessonId = l then some p else findUnique rest u l

/-- Rewrite the first record with key `(u, l)` using `f`, leaving every
other record unchanged: the store effect of a Prisma `update` on the
composite key. -/
def updateFirst (f : DbUserProgress → DbUserProgress) : Store → String → String → Store
  | [], _, _ => []
  | p :: rest, u, l =>
      if p.userId = u ∧ p.lessonId = l then f p :: rest
      else p :: updateFirst f rest u l

/-- Modelled from the spec: record creation defaults are supplied by the
Prisma schema, which is not among the repository sources. Per the spec,
`id` is assigned by the store at first creation, `startedAt` is fixed at
the creation time, `completedAt` is absent until the lesson is marked
complete, and fields a `create` block omits default to `currentStep = 0`,
`completedSteps = ∅`, counters `= 0`. Each `create` block below passes
the fields it sets explicitly and these defaults for the rest. -/
def createRecord (u l newId : String) (now : Nat) (currentStep : Int)
    (completedSteps : List Int) (timeSpentSecs hintsUsed attempts : Int) :
    DbUserProgress :=
  { id := newId
    userId := u
    lessonId := l
    completedSteps := completedSteps
    currentStep := currentStep
    startedAt := now
    completedAt := none
    timeSpentSecs := timeSpentSecs
    hintsUsed := hintsUsed
    attempts := attempts }

/-- `UserProgressRepository.getProgress`: pure read-through. -/
def getProgress (s : Store) (userId lessonId : String) : Option DbUserProgress :=
  findUnique s userId lessonId

/-- `UserProgressRepository.upsertProgress`. The `create` branch fills
unsupplied fields with `?? 0` / `?? []`; the `update` branch applies the
conditional spreads of the source: `currentStep` and `completedSteps`
overwrite when present, while `timeSpentSecs`, `hintsUsed` and `attempts`
are Prisma `increment`s when present. Returns the new store and the
resulting record. -/
def upsertProgress (s : Store) (data : UpsertProgressInput) (newId : String)
    (now : Nat) : Store × DbUserProgress :=
  match findUnique s data.userId data.lessonId with
  | none =>
      let r := createRecord data.userId data.lessonId newId now
        (data.currentStep.getD 0) (data.completedSteps.getD [])
        (data.timeSpentSecs.getD 0) (data.hintsUsed.getD 0)
        (data.attempts.getD 0)
      (s ++ [r], r)
  | some p =>
      let r := { p with
        currentStep := data.currentStep.getD p.currentStep
        completedSteps := data.completedSteps.getD p.completedSteps
        timeSpentSecs := p.timeSpentSecs + data.timeSpentSecs.getD 0
        hintsUsed := p.hintsUsed + data.hintsUsed.getD 0
        attempts := p.attempts + data.attempts.getD 0 }
      (updateFirst (fun _ => r) s data.userId data.lessonId, r)

/-- `UserProgressRepository.markStepComplete`: fetch the existing record;
`updatedSteps` inserts `stepNumber` only when `completedSteps` does not
already include it; the `upsert` creates
`{currentStep = stepNumber + 1, completedSteps = [stepNumber], attempts = 1}`
when no record exists, and otherwise overwrites `completedSteps`, sets
`currentStep` to `max(existing.currentStep, stepNumber + 1)` and
increments `attempts` by 1. -/
def markStepComplete (s : Store) (userId lessonId : String) (stepNumber : Int)
    (newId : String) (now : Nat) : Store × DbUserProgress :=
  match findUnique s userId lessonId with
  | none =>
      let r := createRecord userId lessonId newId now (stepNumber + 1)
        [stepNumber] 0 0 1
      (s ++ [r], r)
  | some p =>
      let updatedSteps :=
        if stepNumber ∈ p.completedSteps then p.completedSteps
        else p.completedSteps ++ [stepNumber]
      let r := { p with
        completedSteps := updatedSteps
        currentStep := max p.currentStep (stepNumber + 1)
        attempts := p.attempts + 1 }
      (updateFirst (fun _ => r) s userId lessonId, r)

/-- `UserProgressRepository.addTimeSpent`: an `upsert` that creates the
record with `timeSpentSecs = seconds` (remaining fields from the schema
defaults) or increments `timeSpentSecs` by `seconds`. The source performs
no validation on `seconds`. -/
def addTimeSpent (s : Store) (userId lessonId : String) (seconds : Int)
    (newId : String) (now : Nat) : Store :=
  match findUnique s userId lessonId with
  | none => s ++ [createRecord userId lessonId newId now 0 [] seconds 0 0]
  | some _ =>
      updateFirst (fun q => { q with timeSpentSecs := q.timeSpentSecs + seconds })
        s userId lessonId

/-- `UserProgressRepository.markLessonComplete`: a Prisma `update` setting
`completedAt` to `new Date()`; when no record exists the update fails with
`NotFound` and the store is untouched. -/
def markLessonComplete (s : Store) (userId lessonId : String) (now : Nat) :
    Store × Except RepoError DbUserProgress :=
  match findUnique s userId lessonId with
  | none => (s, Except.error RepoError.NotFound)
  | some p =>
      let r := { p with completedAt := some now }
      (updateFirst (fun _ => r) s userId lessonId, Except.ok r)

/-- Result type of `UserProgressRepository.getStats`. -/
structure Stats where
  totalLessons : Nat
  completedLessons : Nat
  totalTimeSpent : Int
  totalHintsUsed : Int
  deriving Repr, DecidableEq

/-- `UserProgressRepository.getStats`: `findMany` on `userId`, then count,
count of records with `completedAt` set, and two `reduce` sums. Pure. -/
def getStats (s : Store) (userId : String) : Stats :=
  let progressList := s.filter (fun p => p.userId = userId)
  { totalLessons := progressList.length
    completedLessons := (progressList.filter (fun p => p.completedAt ≠ none)).length
    totalTimeSpent := progressList.foldl (fun sum p => sum + p.timeSpentSecs) 0
    totalHintsUsed := progressList.foldl (fun sum p => sum + p.hintsUsed) 0 }

/-- The `attempts` counter stored at key `(u, l)`, taken as 0 when no
record exists (used to state how much a call sequence increases it). -/
def attemptsAt (s : Store) (u l : String) : Int :=
  ((findUnique s u l).map (fun p => p.attempts)).getD 0

/-- `k` successive `markStepComplete` calls for the same key and the same
step number; call `i` (0-based, applied first) runs with identifier
`nids i` and clock `nows i`. -/
def iterMarkStep (u l : String) (n : Int) (nids : Nat → String)
    (nows : Nat → Nat) : Nat → Store → Store
  | 0, s => s
  | k + 1, s =>
      iterMarkStep u l n (fun i => nids (i + 1)) (fun i => nows (i + 1)) k
        (markStepComplete s u l n (nids 0) (nows 0)).1

/-- The record invariant of the spec data model: the cursor points past
every completed step (equivalent to `currentStep ≥ max(completedSteps) + 1`
when `completedSteps` is non-empty). -/
def stepInvariant (p : DbUserProgress) : Prop :=
  ∀ m ∈ p.completedSteps, m + 1 ≤ p.currentStep

instance (p : DbUserProgress) : Decidable (stepInvariant p) := by
  unfold stepInvariant; infer_instance

/-- An `upsertProgress` input supplying only the `timeSpentSecs` delta. -/
def timeInput (u l : String) (t : Int) : UpsertProgressInput :=
  { userId := u, lessonId := l, timeSpentSecs := some t }

/-- An `upsertProgress` input supplying only `currentStep`. -/
def stepInput (u l : String) (c : Int) : UpsertProgressInput :=
  { userId := u, lessonId := l, currentStep := some c }

/-- An `upsertProgress` input supplying `currentStep` and `timeSpentSecs`. -/
def stepTimeInput (u l : String) (c t : Int) : UpsertProgressInput :=
  { userId := u, lessonId := l, currentStep := some c, timeSpentSecs := some t }

/-- An `upsertProgress` input supplying only `completedSteps`. -/
def stepsInput (u l : String) (cs : List Int) : UpsertProgressInput :=
  { userId := u, lessonId := l, completedSteps := some cs }

/-- A concrete record at key `("u", "l")` used to instantiate theorems:
cursor 4, step 0 completed, 10 seconds spent, 1 hint, 2 attempts. -/
def sampleRec : DbUserProgress := createRecord "u" "l" "r1" 0 4 [0] 10 1 2

/-- The completed record of the getStats scenario: lesson A, completed,
100 seconds, 2 hints. -/
def recA : DbUserProgress :=
  { id := "a", userId := "u", lessonId := "A", completedSteps := [0],
    currentStep := 1, startedAt := 0, completedAt := some 10,
    timeSpentSecs := 100, hintsUsed := 2, attempts := 1 }

/-- The incomplete record of the getStats scenario: lesson B, not
completed, 50 seconds, 1 hint. -/
def recB : DbUserProgress :=
  { id := "b", userId := "u", lessonId := "B", completedSteps := [],
    currentStep := 0, startedAt := 1, completedAt := none,
    timeSpentSecs := 50, hintsUsed := 1, attempts := 0 }

/-! ### Store lemmas -/

theorem findUnique_key :
    ∀ (s : Store) (u l : String) (p : DbUserProgress),
      findUnique s u l = some p → p.userId = u ∧ p.lessonId = l
  | [], _, _, _, h => by simp [findUnique] at h
  | q :: rest, u, l, p, h => by
      by_cases hq : q.userId = u ∧ q.lessonId = l
      · have hp : q = p := by simpa [findUnique, hq] using h
        exact hp ▸ hq
      · have h' : findUnique rest u l = some p := by
          simpa [findUnique, hq] using h
        exact findUnique_key rest u l p h'

theorem findUnique_updateFirst_self (f : DbUserProgress → DbUserProgress)
    (u l : String)
    (hf : ∀ q, q.userId = u ∧ q.lessonId = l →
      (f q).userId = u ∧ (f q).lessonId = l) :
    ∀ (s : Store) (p : DbUserProgress),
      findUnique s u l = some p →
      findUnique (updateFirst f s u l) u l = some (f p)
  | [], _, h => by simp [findUnique] at h
  | q :: rest, p, h => by
      by_cases hq : q.userId = u ∧ q.lessonId = l
      · have hp : q = p := by
          simpa [findUnique, hq] using h
        subst hp
        simp [updateFirst, findUnique, hq, hf q hq]
      · have h' : findUnique rest u l = some p := by
          simpa [findUnique, hq] using h
        simp [updateFirst, findUnique, hq,
          findUnique_updateFirst_self f u l hf rest p h']

theorem findUnique_append_of_none (r : DbUserProgress) :
    ∀ (s : Store) (u l : String),
      findUnique s u l = none → r.userId = u → r.lessonId = l →
      findUnique (s ++ [r]) u l = some r
  | [], u, l, _, hu, hl => by simp [findUnique, hu, hl]
  | q :: rest, u, l, h, hu, hl => by
      by_cases hq : q.userId = u ∧ q.lessonId = l
      · simp [findUnique, hq] at h
      · have h' : findUnique rest u l = none := by
          simpa [findUnique, hq] using h
        simp [findUnique, hq, findUnique_append_of_none r rest u l h' hu hl]

theorem findUnique_updateFirst_other (f : DbUserProgress → DbUserProgress)
    (u l : String)
    (hf : ∀ q, q.userId = u ∧ q.lessonId = l →
      (f q).userId = u ∧ (f q).lessonId = l) :
    ∀ (s : Store) (u' l' : String), ¬(u' = u ∧ l' = l) →
      findUnique (updateFirst f s u l) u' l' = findUnique s u' l'
  | [], _, _, _ => rfl
  | q :: rest, u', l', hne => by
      by_cases hq : q.userId = u ∧ q.lessonId = l
      · have hq' : ¬(q.userId = u' ∧ q.lessonId = l') := by
          rintro ⟨h1, h2⟩
          exact hne ⟨h1 ▸ hq.1, h2 ▸ hq.2⟩
        have hfq' : ¬((f q).userId = u' ∧ (f q).lessonId = l') := by
          rintro ⟨h1, h2⟩
          exact hne ⟨h1 ▸ (hf q hq).1, h2 ▸ (hf q hq).2⟩
        have hcond : ¬(u = u' ∧ l = l') := fun hc => hne ⟨hc.1.symm, hc.2.symm⟩
        simp [updateFirst, findUnique, hq, hq', hfq', hcond]
      · simp [updateFirst, findUnique, hq,
          findUnique_updateFirst_other f u l hf rest u' l' hne]

theorem findUnique_append_other (r : DbUserProgress) (u' l' : String)
    (hr : ¬(r.userId = u' ∧ r.lessonId = l')) :
    ∀ (s : Store), findUnique (s ++ [r]) u' l' = findUnique s u' l'
  | [] => by simp [findUnique, hr]
  | q :: rest => by
      by_cases hq : q.userId = u' ∧ q.lessonId = l'
      · simp [findUnique, hq]
      · simp [findUnique, hq, findUnique_append_other r u' l' hr rest]

/-- After `markStepComplete`, the record stored at the key is exactly the
record the operation returns. -/
theorem markStepComplete_found (s : Store) (u l : String) (n : Int)
    (nid : String) (now : Nat) :
    findUnique (markStepComplete s u l n nid now).1 u l =
      some (markStepComplete s u l n nid now).2 := by
  rcases h : findUnique s u l with _ | p
  · simp only [markStepComplete, h]
    exact findUnique_append_of_none _ s u l h rfl rfl
  · have hk := findUnique_key s u l p h
    simp only [markStepComplete, h]
    exact findUnique_updateFirst_self
      (fun _ =>
        { p with
          completedSteps :=
            if n ∈ p.completedSteps then p.completedSteps
            else p.completedSteps ++ [n]
          currentStep := max p.currentStep (n + 1)
          attempts := p.attempts + 1 })
      u l (fun q _ => ⟨hk.1, hk.2⟩) s p h

/-- After `upsertProgress`, the record stored at the key is exactly the
record the operation returns. -/
theorem upsertProgress_found (s : Store) (data : UpsertProgressInput)
    (nid : String) (now : Nat) :
    findUnique (upsertProgress s data nid now).1 data.userId data.lessonId =
      some (upsertProgress s data nid now).2 := by
  rcases h : findUnique s data.userId data.lessonId with _ | p
  · simp only [upsertProgress, h]
    exact findUnique_append_of_none _ s data.userId data.lessonId h rfl rfl
  · have hk := findUnique_key s data.userId data.lessonId p h
    simp only [upsertProgress, h]
    exact findUnique_updateFirst_self
      (fun _ =>
        { p with
          currentStep := data.currentStep.getD p.currentStep
          completedSteps := data.completedSteps.getD p.completedSteps
          timeSpentSecs := p.timeSpentSecs + data.timeSpentSecs.getD 0
          hintsUsed := p.hintsUsed + data.hintsUsed.getD 0
          attempts := p.attempts + data.attempts.getD 0 })
      data.userId data.lessonId (fun q _ => ⟨hk.1, hk.2⟩) s p h

/-! ### Claim theorems -/

/-- C2: on an existing record, `markStepComplete` sets the cursor to
`max(existing currentStep, stepNumber + 1)`; and on a fresh key, marking
step 0 then step 2 yields `completedSteps = [0, 2]`, `currentStep = 3`,
`attempts = 2`. -/
theorem markStepComplete_cursor_max :
    (∀ (s : Store) (u l : String) (n : Int) (nid : String) (now : Nat)
        (p : DbUserProgress), findUnique s u l = some p →
        ((markStepComplete s u l n nid now).2).currentStep =
          max p.currentStep (n + 1)) ∧
    (((markStepComplete (markStepComplete [] "u" "l" 0 "id0" 0).1
        "u" "l" 2 "id1" 0).2).completedSteps = [0, 2] ∧
     ((markStepComplete (markStepComplete [] "u" "l" 0 "id0" 0).1
        "u" "l" 2 "id1" 0).2).currentStep = 3 ∧
     ((markStepComplete (markStepComplete [] "u" "l" 0 "id0" 0).1
        "u" "l" 2 "id1" 0).2).attempts = 2) := by
  refine ⟨fun s u l n nid now p h => ?_, by decide⟩
  simp [markStepComplete, h]

/-- Witness for C2 at a concrete store holding one record. -/
theorem markStepComplete_cursor_max_spot :
    ((markStepComplete [createRecord "u" "l" "r1" 0 4 [0] 10 1 2]
        "u" "l" 7 "x" 5).2).currentStep =
      max (createRecord "u" "l" "r1" 0 4 [0] 10 1 2).currentStep (7 + 1) :=
  markStepComplete_cursor_max.1 _ "u" "l" 7 "x" 5 _ (by decide)

/-- C3: `upsertProgress` replaces `currentStep` wholesale and increments
the counters: on any existing record a supplied `currentStep` lands
verbatim (no max-merge) while a supplied `timeSpentSecs` is added; from
any fresh key, `timeSpentSecs: 30` twice gives 60, `currentStep: 3` twice
gives 3, and `currentStep: 5` then `currentStep: 3` gives 3. -/
theorem upsertProgress_replace_vs_increment :
    (∀ (s : Store) (u l nid : String) (now : Nat) (p : DbUserProgress)
        (c t : Int), findUnique s u l = some p →
        ((upsertProgress s (stepTimeInput u l c t) nid now).2).currentStep = c ∧
        ((upsertProgress s (stepTimeInput u l c t) nid now).2).timeSpentSecs =
          p.timeSpentSecs + t) ∧
    (∀ (s : Store) (u l nid1 nid2 : String) (t1 t2 : Nat),
        findUnique s u l = none →
        ((upsertProgress (upsertProgress s (timeInput u l 30) nid1 t1).1
            (timeInput u l 30) nid2 t2).2).timeSpentSecs = 60 ∧
        ((upsertProgress (upsertProgress s (stepInput u l 3) nid1 t1).1
            (stepInput u l 3) nid2 t2).2).currentStep = 3 ∧
        ((upsertProgress (upsertProgress s (stepInput u l 5) nid1 t1).1
            (stepInput u l 3) nid2 t2).2).currentStep = 3) := by
  constructor
  · intro s u l nid now p c t h
    constructor <;> simp [upsertProgress, stepTimeInput, h]
  · intro s u l nid1 nid2 t1 t2 h
    have e30 : upsertProgress s (timeInput u l 30) nid1 t1 =
        (s ++ [createRecord u l nid1 t1 0 [] 30 0 0],
          createRecord u l nid1 t1 0 [] 30 0 0) := by
      simp [upsertProgress, timeInput, h, createRecord]
    have e3 : upsertProgress s (stepInput u l 3) nid1 t1 =
        (s ++ [createRecord u l nid1 t1 3 [] 0 0 0],
          createRecord u l nid1 t1 3 [] 0 0 0) := by
      simp [upsertProgress, stepInput, h, createRecord]
    have e5 : upsertProgress s (stepInput u l 5) nid1 t1 =
        (s ++ [createRecord u l nid1 t1 5 [] 0 0 0],
          createRecord u l nid1 t1 5 [] 0 0 0) := by
      simp [upsertProgress, stepInput, h, createRecord]
    refine ⟨?_, ?_, ?_⟩
    · rw [e30]
      have hc : findUnique (s ++ [createRecord u l nid1 t1 0 [] 30 0 0]) u l =
          some (createRecord u l nid1 t1 0 [] 30 0 0) :=
        findUnique_append_of_none _ s u l h rfl rfl
      simp [upsertProgress, timeInput, hc]
      rfl
    · rw [e3]
      have hc : findUnique (s ++ [createRecord u l nid1 t1 3 [] 0 0 0]) u l =
          some (createRecord u l nid1 t1 3 [] 0 0 0) :=
        findUnique_append_of_none _ s u l h rfl rfl
      simp [upsertProgress, stepInput, hc]
    · rw [e5]
      have hc : findUnique (s ++ [createRecord u l nid1 t1 5 [] 0 0 0]) u l =
          some (createRecord u l nid1 t1 5 [] 0 0 0) :=
        findUnique_append_of_none _ s u l h rfl rfl
      simp [upsertProgress, stepInput, hc]

/-- Witness for C3 at concrete inputs. -/
theorem upsertProgress_replace_vs_increment_spot :
    ((upsertProgress [createRecord "u" "l" "r1" 0 4 [0] 10 1 2]
        (stepTimeInput "u" "l" 2 30) "x" 5).2).currentStep = 2 ∧
    ((upsertProgress (upsertProgress [] (timeInput "u" "l" 30) "a" 1).1
        (timeInput "u" "l" 30) "b" 2).2).timeSpentSecs = 60 :=
  ⟨(upsertProgress_replace_vs_increment.1 _ "u" "l" "x" 5
      (createRecord "u" "l" "r1" 0 4 [0] 10 1 2) 2 30 (by decide)).1,
   (upsertProgress_replace_vs_increment.2 [] "u" "l" "a" "b" 1 2
      (by decide)).1⟩

/-- C4: `markLessonComplete` on a missing key fails with `NotFound` and
leaves the store exactly as it was; on an existing record it returns the
record with `completedAt` set to the call time. -/
theorem markLessonComplete_notFound :
    (∀ (s : Store) (u l : String) (now : Nat), findUnique s u l = none →
        markLessonComplete s u l now = (s, Except.error RepoError.NotFound)) ∧
    (∀ (s : Store) (u l : String) (now : Nat) (p : DbUserProgress),
        findUnique s u l = some p →
        ∃ r, (markLessonComplete s u l now).2 = Except.ok r ∧
          r.completedAt = some now) := by
  constructor
  · intro s u l now h
    simp [markLessonComplete, h]
  · intro s u l now p h
    refine ⟨{ p with completedAt := some now }, ?_, rfl⟩
    simp [markLessonComplete, h]

/-- Witness for C4: failure on the empty store, success on a one-record
store. -/
theorem markLessonComplete_notFound_spot :
    markLessonComplete [] "u" "l" 9 = ([], Except.error RepoError.NotFound) ∧
    ∃ r, (markLessonComplete [createRecord "u" "l" "r1" 0 4 [0] 10 1 2]
        "u" "l" 9).2 = Except.ok r ∧ r.completedAt = some 9 :=
  ⟨markLessonComplete_notFound.1 [] "u" "l" 9 (by decide),
   markLessonComplete_notFound.2 [createRecord "u" "l" "r1" 0 4 [0] 10 1 2]
     "u" "l" 9 (createRecord "u" "l" "r1" 0 4 [0] 10 1 2) (by decide)⟩

/-- C10: on an existing record, `markStepComplete` leaves `id`, `userId`,
`lessonId`, `startedAt`, `completedAt`, `timeSpentSecs` and `hintsUsed` of
that record unchanged, and every other key reads back exactly as before. -/
theorem markStepComplete_frame (s : Store) (u l : String) (n : Int)
    (nid : String) (now : Nat) (p : DbUserProgress)
    (h : findUnique s u l = some p) :
    (((markStepComplete s u l n nid now).2).id = p.id ∧
     ((markStepComplete s u l n nid now).2).userId = p.userId ∧
     ((markStepComplete s u l n nid now).2).lessonId = p.lessonId ∧
     ((markStepComplete s u l n nid now).2).startedAt = p.startedAt ∧
     ((markStepComplete s u l n nid now).2).completedAt = p.completedAt ∧
     ((markStepComplete s u l n nid now).2).timeSpentSecs = p.timeSpentSecs ∧
     ((markStepComplete s u l n nid now).2).hintsUsed = p.hintsUsed) ∧
    (∀ u' l', ¬(u' = u ∧ l' = l) →
      findUnique (markStepComplete s u l n nid now).1 u' l' =
        findUnique s u' l') := by
  have hk := findUnique_key s u l p h
  constructor
  · refine ⟨?_, ?_, ?_, ?_, ?_, ?_, ?_⟩ <;> simp [markStepComplete, h]
  · intro u' l' hne
    simp only [markStepComplete, h]
    exact findUnique_updateFirst_other
      (fun _ =>
        { p with
          completedSteps :=
            if n ∈ p.completedSteps then p.completedSteps
            else p.completedSteps ++ [n]
          currentStep := max p.currentStep (n + 1)
          attempts := p.attempts + 1 })
      u l (fun q _ => ⟨hk.1, hk.2⟩) s u' l' hne

/-- Witness for C10 at a concrete one-record store and a foreign key. -/
theorem markStepComplete_frame_spot :
    ((markStepComplete [sampleRec] "u" "l" 7 "x" 5).2).completedAt =
      sampleRec.completedAt ∧
    findUnique (markStepComplete [sampleRec] "u" "l" 7 "x" 5).1 "v" "l" =
      findUnique [sampleRec] "v" "l" :=
  ⟨(markStepComplete_frame [sampleRec] "u" "l" 7 "x" 5 sampleRec
      (by decide)).1.2.2.2.2.1,
   (markStepComplete_frame [sampleRec] "u" "l" 7 "x" 5 sampleRec
      (by decide)).2 "v" "l" (by simp)⟩

/-- One `markStepComplete` call, from any state in which the key's record
(when present) lists `n` at most once: afterwards the key's record is the
returned record, lists `n` exactly once, has its cursor past `n`, and has
one more attempt than the key had before. -/
theorem markStepComplete_once (s : Store) (u l : String) (n : Int)
    (nid : String) (now : Nat)
    (hpre : ∀ p, findUnique s u l = some p → p.completedSteps.count n ≤ 1) :
    findUnique (markStepComplete s u l n nid now).1 u l =
        some (markStepComplete s u l n nid now).2 ∧
    ((markStepComplete s u l n nid now).2).completedSteps.count n = 1 ∧
    n + 1 ≤ ((markStepComplete s u l n nid now).2).currentStep ∧
    ((markStepComplete s u l n nid now).2).attempts =
      attemptsAt s u l + 1 := by
  refine ⟨markStepComplete_found s u l n nid now, ?_⟩
  rcases h : findUnique s u l with _ | p
  · refine ⟨?_, ?_, ?_⟩ <;>
      simp [markStepComplete, h, createRecord, attemptsAt]
  · have hc := hpre p h
    by_cases hmem : n ∈ p.completedSteps
    · have h1 : 1 ≤ p.completedSteps.count n := List.one_le_count_iff.2 hmem
      refine ⟨?_, ?_, ?_⟩
      · simp [markStepComplete, h, hmem]
        omega
      · simp [markStepComplete, h, hmem]
      · simp [markStepComplete, h, hmem, attemptsAt]
    · have h0 : p.completedSteps.count n = 0 := List.count_eq_zero.2 hmem
      refine ⟨?_, ?_, ?_⟩
      · simp [markStepComplete, h, hmem, h0]
      · simp [markStepComplete, h, hmem]
      · simp [markStepComplete, h, hmem, attemptsAt]

/-- C1: `k ≥ 1` repeated `markStepComplete` calls for the same key and the
same step number `n`, from any state whose record at the key (when one
exists) lists `n` at most once (the no-duplicates model invariant): the
final record lists `n` exactly once, has `currentStep ≥ n + 1`, and has
`attempts` exactly `k` larger than the value stored before the sequence
(0 when no record existed). -/
theorem markStepComplete_repeat (u l : String) (n : Int) :
    ∀ (k : Nat) (s : Store) (nids : Nat → String) (nows : Nat → Nat),
      1 ≤ k →
      (∀ p, findUnique s u l = some p → p.completedSteps.count n ≤ 1) →
      ∃ r, findUnique (iterMarkStep u l n nids nows k s) u l = some r ∧
        r.completedSteps.count n = 1 ∧ n + 1 ≤ r.currentStep ∧
        r.attempts = attemptsAt s u l + k
  | 0, _, _, _, hk, _ => absurd hk (by omega)
  | k + 1, s, nids, nows, _, hpre => by
      obtain ⟨hfound, hcount, hcur, hatt⟩ :=
        markStepComplete_once s u l n (nids 0) (nows 0) hpre
      rcases Nat.eq_zero_or_pos k with hk0 | hk1
      · subst hk0
        exact ⟨(markStepComplete s u l n (nids 0) (nows 0)).2,
          by simpa [iterMarkStep] using hfound, hcount, hcur, by
            simpa using hatt⟩
      · have hpre1 : ∀ p,
            findUnique (markStepComplete s u l n (nids 0) (nows 0)).1 u l =
              some p → p.completedSteps.count n ≤ 1 := by
          intro p hp
          rw [hfound] at hp
          cases hp
          exact le_of_eq hcount
        obtain ⟨r, hr, hrcount, hrcur, hratt⟩ :=
          markStepComplete_repeat u l n k
            (markStepComplete s u l n (nids 0) (nows 0)).1
            (fun i => nids (i + 1)) (fun i => nows (i + 1)) hk1 hpre1
        refine ⟨r, by simpa [iterMarkStep] using hr, hrcount, hrcur, ?_⟩
        have hA : attemptsAt (markStepComplete s u l n (nids 0) (nows 0)).1
            u l = attemptsAt s u l + 1 := by
          simp [attemptsAt, hfound, hatt]
        rw [hratt, hA]
        push_cast
        ring

/-- Witness for C1: two calls for step 3 on the empty store. -/
theorem markStepComplete_repeat_spot :
    ∃ r, findUnique
        (iterMarkStep "u" "l" 3 (fun _ => "x") (fun _ => 0) 2 []) "u" "l" =
          some r ∧
      r.completedSteps.count 3 = 1 ∧ (3 : Int) + 1 ≤ r.currentStep ∧
      r.attempts = attemptsAt [] "u" "l" + 2 :=
  markStepComplete_repeat "u" "l" 3 2 [] (fun _ => "x") (fun _ => 0)
    (by decide) (fun p hp => by simp [findUnique] at hp)

/-- After `addTimeSpent` on an existing record, the record stored at the
key is the old record with `seconds` added to `timeSpentSecs`. -/
theorem addTimeSpent_found (s : Store) (u l : String) (sec : Int)
    (nid : String) (now : Nat) (p : DbUserProgress)
    (h : findUnique s u l = some p) :
    findUnique (addTimeSpent s u l sec nid now) u l =
      some { p with timeSpentSecs := p.timeSpentSecs + sec } := by
  have hk := findUnique_key s u l p h
  simp only [addTimeSpent, h]
  exact findUnique_updateFirst_self
    (fun q => { q with timeSpentSecs := q.timeSpentSecs + sec })
    u l (fun q hq => ⟨hq.1, hq.2⟩) s p h

/-- After a successful `markLessonComplete`, the record stored at the key
is the old record with `completedAt` set to the call time. -/
theorem markLessonComplete_found (s : Store) (u l : String) (now : Nat)
    (p : DbUserProgress) (h : findUnique s u l = some p) :
    findUnique (markLessonComplete s u l now).1 u l =
      some { p with completedAt := some now } := by
  have hk := findUnique_key s u l p h
  simp only [markLessonComplete, h]
  exact findUnique_updateFirst_self
    (fun _ => { p with completedAt := some now })
    u l (fun q _ => ⟨hk.1, hk.2⟩) s p h

/-- C5 counterexample: the source performs no non-negativity validation.
`addTimeSpent` with `-5` on the empty store changes the store, creating a
record with `timeSpentSecs = -5`, and `markStepComplete` with step `-2`
records the negative step instead of rejecting it. -/
theorem negative_input_reaches_store :
    addTimeSpent [] "u" "l" (-5) "x" 0 =
      [createRecord "u" "l" "x" 0 0 [] (-5) 0 0] ∧
    addTimeSpent [] "u" "l" (-5) "x" 0 ≠ [] ∧
    ((markStepComplete [] "u" "l" (-2) "x" 0).2).completedSteps = [-2] := by
  refine ⟨?_, ?_, ?_⟩ <;> decide

/-- C5 amended: neither `addTimeSpent` nor `markStepComplete` validates
its numeric argument; a negative `seconds` is passed to the store
unchanged (stored as the initial counter value on creation, added as a
decrement on an existing record), and a negative `stepNumber` is inserted
into `completedSteps` like any other step. -/
theorem negative_input_applied :
    (∀ (s : Store) (u l nid : String) (now : Nat) (sec : Int),
        sec < 0 → findUnique s u l = none →
        addTimeSpent s u l sec nid now =
          s ++ [createRecord u l nid now 0 [] sec 0 0]) ∧
    (∀ (s : Store) (u l nid : String) (now : Nat) (sec : Int)
        (p : DbUserProgress), sec < 0 → findUnique s u l = some p →
        findUnique (addTimeSpent s u l sec nid now) u l =
          some { p with timeSpentSecs := p.timeSpentSecs + sec }) ∧
    (∀ (s : Store) (u l nid : String) (now : Nat) (n : Int), n < 0 →
        n ∈ ((markStepComplete s u l n nid now).2).completedSteps) := by
  refine ⟨?_, ?_, ?_⟩
  · intro s u l nid now sec _ h
    simp [addTimeSpent, h]
  · intro s u l nid now sec p _ h
    exact addTimeSpent_found s u l sec nid now p h
  · intro s u l nid now n _
    rcases h : findUnique s u l with _ | p
    · simp [markStepComplete, h, createRecord]
    · by_cases hmem : n ∈ p.completedSteps <;>
        simp [markStepComplete, h, hmem]

/-- Witness for the amended C5 at concrete negative inputs. -/
theorem negative_input_applied_spot :
    addTimeSpent [] "u" "l" (-7) "x" 0 =
      [] ++ [createRecord "u" "l" "x" 0 0 [] (-7) 0 0] ∧
    findUnique (addTimeSpent [sampleRec] "u" "l" (-7) "x" 0) "u" "l" =
      some { sampleRec with timeSpentSecs := sampleRec.timeSpentSecs + -7 } ∧
    (-7 : Int) ∈ ((markStepComplete [] "u" "l" (-7) "x" 0).2).completedSteps :=
  ⟨negative_input_applied.1 [] "u" "l" "x" 0 (-7) (by decide) (by decide),
   negative_input_applied.2.1 [sampleRec] "u" "l" "x" 0 (-7) sampleRec
     (by decide) (by decide),
   negative_input_applied.2.2 [] "u" "l" "x" 0 (-7) (by decide)⟩

/-- C6 counterexample: `upsertProgress` replaces `currentStep` blindly, so
it does not preserve the cursor invariant: `sampleRec` satisfies
`currentStep ≥ max(completedSteps) + 1`, but upserting `currentStep := 0`
over it yields a record with step 0 completed and cursor 0. -/
theorem upsertProgress_breaks_step_invariant :
    stepInvariant sampleRec ∧
    ¬ stepInvariant ((upsertProgress [sampleRec] (stepInput "u" "l" 0)
        "x" 1).2) := by
  constructor <;> decide

/-- C6 amended: the invariant `currentStep ≥ max(completedSteps) + 1` is
preserved by `markStepComplete` (both branches), `addTimeSpent` and
`markLessonComplete`; `upsertProgress` can violate it, since it installs
the caller's `currentStep` and `completedSteps` without reconciling them
(counterexample above). -/
theorem step_invariant_preserved :
    (∀ (s : Store) (u l : String) (n : Int) (nid : String) (now : Nat)
        (p : DbUserProgress), findUnique s u l = some p → stepInvariant p →
        stepInvariant ((markStepComplete s u l n nid now).2)) ∧
    (∀ (s : Store) (u l : String) (n : Int) (nid : String) (now : Nat),
        findUnique s u l = none →
        stepInvariant ((markStepComplete s u l n nid now).2)) ∧
    (∀ (s : Store) (u l : String) (sec : Int) (nid : String) (now : Nat)
        (r : DbUserProgress),
        (∀ p, findUnique s u l = some p → stepInvariant p) →
        findUnique (addTimeSpent s u l sec nid now) u l = some r →
        stepInvariant r) ∧
    (∀ (s : Store) (u l : String) (now : Nat) (p r : DbUserProgress),
        findUnique s u l = some p → stepInvariant p →
        (markLessonComplete s u l now).2 = Except.ok r →
        stepInvariant r) := by
  refine ⟨?_, ?_, ?_, ?_⟩
  · intro s u l n nid now p h hinv
    by_cases hmem : n ∈ p.completedSteps
    · simp only [markStepComplete, h, stepInvariant, hmem, if_pos]
      intro m hm
      exact le_trans (hinv m hm) (le_max_left _ _)
    · simp only [markStepComplete, h, stepInvariant, hmem, if_neg,
        not_false_iff]
      intro m hm
      rcases List.mem_append.1 hm with hm | hm
      · exact le_trans (hinv m hm) (le_max_left _ _)
      · have : m = n := by simpa using hm
        subst this
        exact le_max_right _ _
  · intro s u l n nid now h
    simp only [markStepComplete, h, stepInvariant, createRecord]
    intro m hm
    have : m = n := by simpa using hm
    subst this
    exact le_refl _
  · intro s u l sec nid now r hinv hr
    rcases h : findUnique s u l with _ | p
    · rw [show addTimeSpent s u l sec nid now =
          s ++ [createRecord u l nid now 0 [] sec 0 0] from by
        simp [addTimeSpent, h]] at hr
      rw [findUnique_append_of_none _ s u l h rfl rfl] at hr
      cases hr
      intro m hm
      simp [createRecord] at hm
    · rw [addTimeSpent_found s u l sec nid now p h] at hr
      cases hr
      intro m hm
      exact hinv p h m hm
  · intro s u l now p r h hinv hr
    have : r = { p with completedAt := some now } := by
      have := hr
      simp [markLessonComplete, h] at this
      exact this.symm
    subst this
    intro m hm
    exact hinv m hm

/-- Witness for the amended C6 at concrete inputs. -/
theorem step_invariant_preserved_spot :
    stepInvariant ((markStepComplete [sampleRec] "u" "l" 9 "x" 1).2) ∧
    stepInvariant ((markStepComplete [] "u" "l" 9 "x" 1).2) :=
  ⟨step_invariant_preserved.1 [sampleRec] "u" "l" 9 "x" 1 sampleRec
      (by decide) (by decide),
   step_invariant_preserved.2.1 [] "u" "l" 9 "x" 1 (by decide)⟩

/-- C7 counterexample: `completedAt` is not immutable. Starting from
`sampleRec` (no completion), `markLessonComplete` at time 5 and then again
at time 9 leaves `completedAt = some 9`, not the value `some 5` set by the
first call: the second call overwrites it with the current time. -/
theorem markLessonComplete_overwrites_completedAt :
    ((findUnique (markLessonComplete
        (markLessonComplete [sampleRec] "u" "l" 5).1 "u" "l" 9).1
        "u" "l").map (fun r => r.completedAt)) = some (some 9) ∧
    (some 9 : Option Nat) ≠ some 5 := by
  constructor <;> decide

/-- C7 amended: `completedAt` is never cleared — `upsertProgress`,
`markStepComplete` and `addTimeSpent` leave it untouched, and a successful
`markLessonComplete` always stores `some now` — and under a non-decreasing
clock it never moves earlier; but it is not immutable: each
`markLessonComplete` overwrites it with the current call time. -/
theorem completedAt_never_cleared :
    (∀ (s : Store) (u l : String) (now : Nat) (p : DbUserProgress),
        findUnique s u l = some p →
        findUnique (markLessonComplete s u l now).1 u l =
          some { p with completedAt := some now }) ∧
    (∀ (s : Store) (u l : String) (now : Nat) (p : DbUserProgress)
        (t : Nat), findUnique s u l = some p → p.completedAt = some t →
        t ≤ now → ∀ r, findUnique (markLessonComplete s u l now).1 u l =
          some r → ∃ t2, r.completedAt = some t2 ∧ t ≤ t2) ∧
    (∀ (s : Store) (data : UpsertProgressInput) (nid : String) (now : Nat)
        (p : DbUserProgress), findUnique s data.userId data.lessonId = some p →
        ((upsertProgress s data nid now).2).completedAt = p.completedAt) ∧
    (∀ (s : Store) (u l : String) (n : Int) (nid : String) (now : Nat)
        (p : DbUserProgress), findUnique s u l = some p →
        ((markStepComplete s u l n nid now).2).completedAt = p.completedAt) ∧
    (∀ (s : Store) (u l : String) (sec : Int) (nid : String) (now : Nat)
        (p r : DbUserProgress), findUnique s u l = some p →
        findUnique (addTimeSpent s u l sec nid now) u l = some r →
        r.completedAt = p.completedAt) := by
  refine ⟨?_, ?_, ?_, ?_, ?_⟩
  · intro s u l now p h
    exact markLessonComplete_found s u l now p h
  · intro s u l now p t h _ hle r hr
    rw [markLessonComplete_found s u l now p h] at hr
    cases hr
    exact ⟨now, rfl, hle⟩
  · intro s data nid now p h
    simp [upsertProgress, h]
  · intro s u l n nid now p h
    simp [markStepComplete, h]
  · intro s u l sec nid now p r h hr
    rw [addTimeSpent_found s u l sec nid now p h] at hr
    cases hr
    rfl

/-- Witness for the amended C7 at a concrete completed record. -/
theorem completedAt_never_cleared_spot :
    findUnique (markLessonComplete
        [{ sampleRec with completedAt := some 5 }] "u" "l" 9).1 "u" "l" =
      some { sampleRec with completedAt := some 9 } ∧
    ((markStepComplete [{ sampleRec with completedAt := some 5 }]
        "u" "l" 7 "x" 1).2).completedAt =
      ({ sampleRec with completedAt := some 5 } :
        DbUserProgress).completedAt :=
  ⟨completedAt_never_cleared.1 [{ sampleRec with completedAt := some 5 }]
      "u" "l" 9 { sampleRec with completedAt := some 5 } (by decide),
   completedAt_never_cleared.2.2.2.1
      [{ sampleRec with completedAt := some 5 }] "u" "l" 7 "x" 1
      { sampleRec with completedAt := some 5 } (by decide)⟩

/-- Folding addition of a projection over a list equals the initial value
plus the sum of the mapped list (the `reduce` pattern of `getStats`). -/
theorem foldl_add_eq_sum (f : DbUserProgress → Int) :
    ∀ (l : List DbUserProgress) (a : Int),
      l.foldl (fun acc p => acc + f p) a = a + (l.map f).sum
  | [], a => by simp
  | p :: rest, a => by
      simp [List.foldl_cons, foldl_add_eq_sum f rest (a + f p), add_assoc]

/-- C8: `getStats` counts the records of the user, counts those with
`completedAt` set, and sums `timeSpentSecs` and `hintsUsed`, purely from
the store; on the two-record scenario (A completed with 100 s / 2 hints,
B incomplete with 50 s / 1 hint) it returns exactly
(2, 1, 150, 3). -/
theorem getStats_spec :
    (∀ (s : Store) (u : String),
        (getStats s u).totalLessons =
          (s.filter (fun p => p.userId = u)).length ∧
        (getStats s u).completedLessons =
          ((s.filter (fun p => p.userId = u)).filter
            (fun p => p.completedAt ≠ none)).length ∧
        (getStats s u).totalTimeSpent =
          ((s.filter (fun p => p.userId = u)).map
            (fun p => p.timeSpentSecs)).sum ∧
        (getStats s u).totalHintsUsed =
          ((s.filter (fun p => p.userId = u)).map
            (fun p => p.hintsUsed)).sum) ∧
    getStats [recA, recB] "u" =
      { totalLessons := 2, completedLessons := 1, totalTimeSpent := 150,
        totalHintsUsed := 3 } := by
  constructor
  · intro s u
    refine ⟨rfl, rfl, ?_, ?_⟩ <;> simp [getStats, foldl_add_eq_sum]
  · decide

/-- C9 counterexample: `upsertProgress` installs the caller's
`completedSteps` verbatim, so starting from the duplicate-free
`sampleRec`, upserting `completedSteps := [1, 1]` produces a record whose
`completedSteps` has a duplicate. -/
theorem upsertProgress_allows_duplicates :
    sampleRec.completedSteps.Nodup ∧
    ¬ (((upsertProgress [sampleRec] (stepsInput "u" "l" [1, 1])
        "x" 0).2).completedSteps.Nodup) := by
  constructor <;> decide

/-- C9 amended: `markStepComplete` preserves duplicate-freeness of
`completedSteps` (membership test before insert, both branches), and
`upsertProgress` preserves it exactly when the supplied `completedSteps`
(if any) is itself duplicate-free; with a duplicate-bearing input it
violates the invariant (counterexample above). -/
theorem nodup_preserved :
    (∀ (s : Store) (u l : String) (n : Int) (nid : String) (now : Nat)
        (p : DbUserProgress), findUnique s u l = some p →
        p.completedSteps.Nodup →
        ((markStepComplete s u l n nid now).2).completedSteps.Nodup) ∧
    (∀ (s : Store) (u l : String) (n : Int) (nid : String) (now : Nat),
        findUnique s u l = none →
        ((markStepComplete s u l n nid now).2).completedSteps.Nodup) ∧
    (∀ (s : Store) (data : UpsertProgressInput) (nid : String) (now : Nat)
        (cs : List Int), data.completedSteps = some cs → cs.Nodup →
        ((upsertProgress s data nid now).2).completedSteps.Nodup) ∧
    (∀ (s : Store) (data : UpsertProgressInput) (nid : String) (now : Nat),
        data.completedSteps = none →
        (∀ p, findUnique s data.userId data.lessonId = some p →
          p.completedSteps.Nodup) →
        ((upsertProgress s data nid now).2).completedSteps.Nodup) := by
  refine ⟨?_, ?_, ?_, ?_⟩
  · intro s u l n nid now p h hnodup
    by_cases hmem : n ∈ p.completedSteps
    · simpa [markStepComplete, h, hmem] using hnodup
    · simp [markStepComplete, h, hmem, List.nodup_append, hnodup]
  · intro s u l n nid now h
    simp [markStepComplete, h, createRecord]
  · intro s data nid now cs hdata hnodup
    rcases h : findUnique s data.userId data.lessonId with _ | p <;>
      simp [upsertProgress, h, hdata, createRecord, hnodup]
  · intro s data nid now hdata hinv
    rcases h : findUnique s data.userId data.lessonId with _ | p <;>
      simp [upsertProgress, h, hdata, createRecord]
    exact hinv p h

/-- Witness for the amended C9 at concrete inputs. -/
theorem nodup_preserved_spot :
    ((markStepComplete [sampleRec] "u" "l" 0 "x" 1).2).completedSteps.Nodup ∧
    ((upsertProgress [sampleRec] (stepsInput "u" "l" [1, 2])
        "x" 0).2).completedSteps.Nodup :=
  ⟨nodup_preserved.1 [sampleRec] "u" "l" 0 "x" 1 sampleRec (by decide)
      (by decide),
   nodup_preserved.2.2.1 [sampleRec] (stepsInput "u" "l" [1, 2]) "x" 0
      [1, 2] (by decide) (by decide)⟩

end OpenKernel
